import Mathlib

/-!
Verification of the device-composition / slot-introspection layer
(`hw/core/slotinfo.c`, `hw/core/bus.c`, `qom/helpers.c`) against its
natural-language specification.

The C data structures are shallowly embedded:
* `QObj` models the `QObject` value universe used by `SlotOption.values`
  (scalars null / number / string / boolean, and lists; per the spec's
  ValueSet data model §3, which has no dictionaries).
* `SlotOption`, `DeviceSlotInfo` mirror the QAPI structs, with exactly the
  fields the slot-merging code reads.
* Bus realize/unrealize and flip properties are modelled with hook outcomes
  as data and an event trace recording which hooks ran.
-/

/-- The QObject value universe for slot option values: a scalar
(null / number / string / boolean) or a list. -/
inductive QObj where
  | qnull
  | qnum (n : Int)
  | qstring (s : String)
  | qbool (b : Bool)
  | qlist (l : List QObj)
deriving Repr

/-- Type tags, mirroring `QType`. -/
inductive QTy where
  | tnull | tnum | tstring | tbool | tlist
deriving DecidableEq, Repr

/-- `qobject_type`. -/
def qobject_type : QObj → QTy
  | .qnull => .tnull
  | .qnum _ => .tnum
  | .qstring _ => .tstring
  | .qbool _ => .tbool
  | .qlist _ => .tlist

/-- Three-way sign of an integer comparison. -/
def cmpInt (a b : Int) : Int :=
  if a < b then -1 else if b < a then 1 else 0

/-- Three-way comparison of one character by its code point. -/
def cmpChar (a b : Char) : Int :=
  cmpInt a.toNat b.toNat

/-- Lexicographic three-way comparison of character lists. -/
def cmpCharList : List Char → List Char → Int
  | [], [] => 0
  | [], _ :: _ => -1
  | _ :: _, [] => 1
  | a :: as, b :: bs =>
    let c := cmpChar a b
    if c = 0 then cmpCharList as bs else c

/-- Three-way sign of a string comparison (lexicographic, like `strcmp`). -/
def cmpString (a b : String) : Int :=
  cmpCharList a.data b.data

/-- Three-way sign of a boolean comparison (false < true). -/
def cmpBool (a b : Bool) : Int :=
  if a = b then 0 else if a then 1 else -1

/-- Rank of a type tag, used to order values of different types. -/
def qtypeRank : QTy → Nat
  | .tnull => 0 | .tnum => 1 | .tstring => 2 | .tbool => 3 | .tlist => 4

mutual
/-- Modelled from the spec: `qobject_compare` (declared in the QAPI headers,
definition not part of the snapshot) is a total structural comparator on
QObjects: equal-typed scalars compare by their natural order (§3 "compared by
their natural order"), lists compare lexicographically element by element,
and values of different types compare by a fixed type order.  In particular
`qobject_compare a b = 0` exactly when `a` and `b` are structurally equal
(no value-set normalization is performed). -/
def qobject_compare : QObj → QObj → Int
  | .qnull, .qnull => 0
  | .qnum a, .qnum b => cmpInt a b
  | .qstring a, .qstring b => cmpString a b
  | .qbool a, .qbool b => cmpBool a b
  | .qlist a, .qlist b => qlist_compare a b
  | a, b => cmpInt (qtypeRank (qobject_type a)) (qtypeRank (qobject_type b))
termination_by structural a => a

/-- Lexicographic comparison of QObject lists (helper of `qobject_compare`). -/
def qlist_compare : List QObj → List QObj → Int
  | [], [] => 0
  | [], _ :: _ => -1
  | _ :: _, [] => 1
  | a :: as, b :: bs =>
    let c := qobject_compare a b
    if c = 0 then qlist_compare as bs else c
termination_by structural a => a
end

/-! ## ValueSet operations (`hw/core/slotinfo.c`) -/

/-- `valuelist_normalize`: a list is returned as is, anything else is wrapped
in a single-element list. -/
def valuelist_normalize : QObj → List QObj
  | .qlist l => l
  | v => [v]

/-- `valuelist_simplify`: a one-element list whose element is a scalar
(null / number / string / boolean) becomes that bare scalar; any other list is
returned unchanged. -/
def valuelist_simplify (values : List QObj) : QObj :=
  match values with
  | [o] =>
    match qobject_type o with
    | .tnull | .tnum | .tstring | .tbool => o
    | _ => .qlist values
  | _ => .qlist values

/-- `valuelist_entry_contains`: whether one entry of a value list contains
`v`.  A one-element list compares its sole element against `v`; a two-element
list is an inclusive range provided `v` and both endpoints are numbers or
strings of one same type; scalar entries compare structurally; anything else
never matches. -/
def valuelist_entry_contains (ev v : QObj) : Bool :=
  match ev with
  | .qlist l =>
    match l with
    | [a] => qobject_compare a v = 0
    | [a, b] =>
      let ta := qobject_type a
      let tb := qobject_type b
      let tv := qobject_type v
      (tv = .tnum ∨ tv = .tstring) ∧ ta = tv ∧ tb = tv ∧
        qobject_compare a v ≤ 0 ∧ qobject_compare v b ≤ 0
    | _ => false
  | .qnum _ | .qstring _ | .qbool _ => qobject_compare ev v = 0
  | _ => false

/-- `valuelist_contains`: normalize, then test each entry. -/
def valuelist_contains (values v : QObj) : Bool :=
  (valuelist_normalize values).any (fun ev => valuelist_entry_contains ev v)

/-- `valuelist_extend`: normalize both lists, append every element of the
addition onto the target (no de-duplication, no range coalescing), then
re-simplify. -/
def valuelist_extend (valuelist new : QObj) : QObj :=
  valuelist_simplify (valuelist_normalize valuelist ++ valuelist_normalize new)

/-! ## Slot descriptors and the merge algorithm (`hw/core/slotinfo.c`) -/

/-- `SlotOption`: an option name with its value set. -/
structure SlotOption where
  option : String
  values : QObj
deriving Repr

/-- `DeviceSlotInfo`, with the fields read by the merging code.  `has_count`
and `has_device` mirror the QAPI optional-field presence flags. -/
structure DeviceSlotInfo where
  available : Bool
  hotpluggable : Bool
  has_count : Bool
  count : Int
  opts_complete : Bool
  has_device : Bool
  device : String
  device_types : List String
  opts : List SlotOption
deriving Repr

/-- `find_slot_option`: first option with the given name, if any. -/
def find_slot_option (opts : List SlotOption) (option : String) : Option SlotOption :=
  opts.find? (fun o => o.option = option)

/-- The second loop of `slot_options_can_be_combined`, threading the current
mismatching option name.  `none` models returning false; `some m` models
returning true with `*opt_name = m`. -/
def slot_options_loop (b : List SlotOption) :
    List SlotOption → Option String → Option (Option String)
  | [], mismatch => some mismatch
  | ao :: rest, mismatch =>
    match find_slot_option b ao.option with
    | none => none
    | some bo =>
      if qobject_compare bo.values ao.values = 0 then
        slot_options_loop b rest mismatch
      else
        match mismatch with
        | some m => if m ≠ ao.option then none else slot_options_loop b rest (some ao.option)
        | none => slot_options_loop b rest (some ao.option)

/-- `slot_options_can_be_combined`: first check that every option of `b`
occurs in `a`, then walk `a` tracking at most one mismatching option name. -/
def slot_options_can_be_combined (a b : List SlotOption) : Option (Option String) :=
  if b.all (fun ol => (find_slot_option a ol.option).isSome) then
    slot_options_loop b a none
  else
    none

/-- `compare_strList`: element-wise `strcmp`, then the shorter list first. -/
def compare_strList : List String → List String → Int
  | a :: as, b :: bs =>
    let c := cmpString a b
    if c ≠ 0 then c else compare_strList as bs
  | [], _ :: _ => -1
  | _ :: _, [] => 1
  | [], [] => 0

/-- `slots_can_be_combined`: the field guard followed by the option-set
comparison. -/
def slots_can_be_combined (a b : DeviceSlotInfo) : Option (Option String) :=
  if a.available ≠ b.available ∨
     a.hotpluggable ≠ b.hotpluggable ∨
     a.has_count ≠ b.has_count ∨
     a.opts_complete ≠ b.opts_complete ∨
     a.has_device ∨ b.has_device ∨
     compare_strList a.device_types b.device_types ≠ 0 then
    none
  else
    slot_options_can_be_combined a.opts b.opts

/-- Replace the values of the first option named `option` with the extension
of its values by `newVals` (the in-place update done by `slots_combine`). -/
def extend_slot_option (opts : List SlotOption) (option : String) (newVals : QObj) :
    List SlotOption :=
  match opts with
  | [] => []
  | o :: rest =>
    if o.option = option then
      { o with values := valuelist_extend o.values newVals } :: rest
    else
      o :: extend_slot_option rest option newVals

/-- The option-extension step of `slots_combine`. -/
def slots_combine_opts (a b : DeviceSlotInfo) (opt_name : Option String) : DeviceSlotInfo :=
  match opt_name with
  | some k =>
    match find_slot_option b.opts k with
    | some bopt => { a with opts := extend_slot_option a.opts k bopt.values }
    | none => a
  | none => a

/-- `slots_combine`: add `b`'s count into `a`'s when `a` has a count, and
extend the mismatching option's value set with `b`'s values; `b` is
discarded. -/
def slots_combine (a b : DeviceSlotInfo) (opt_name : Option String) : DeviceSlotInfo :=
  slots_combine_opts (if a.has_count then { a with count := a.count + b.count } else a)
    b opt_name

/-- `slots_try_combine`: combine when possible. -/
def slots_try_combine (a b : DeviceSlotInfo) : Option DeviceSlotInfo :=
  match slots_can_be_combined a b with
  | some opt => some (slots_combine a b opt)
  | none => none

/-- `slot_list_add_slot`'s scan: replace the first entry that combines with
`slot`; `none` when no entry combines. -/
def slot_list_try_combine : List DeviceSlotInfo → DeviceSlotInfo →
    Option (List DeviceSlotInfo)
  | [], _ => none
  | x :: xs, slot =>
    match slots_try_combine x slot with
    | some x' => some (x' :: xs)
    | none => (slot_list_try_combine xs slot).map (x :: ·)

/-- `slot_list_add_slot`: merge into the first combinable entry, else prepend
as the new list head. -/
def slot_list_add_slot (l : List DeviceSlotInfo) (slot : DeviceSlotInfo) :
    List DeviceSlotInfo :=
  match slot_list_try_combine l slot with
  | some l' => l'
  | none => slot :: l

/-! ## Bus auto-naming (`hw/core/bus.c`, `qbus_realize`) -/

/-- `qemu_tolower` on one character (ASCII). -/
def qemu_tolower (c : Char) : Char :=
  if 'A' ≤ c ∧ c ≤ 'Z' then Char.ofNat (c.toNat + 32) else c

/-- Lowercase every character of a string, as the `for` loop over
`bus->name` does. -/
def lowerString (s : String) : String := ⟨s.data.map qemu_tolower⟩

/-- The mutable naming state: per-concrete-type `automatic_ids` counters and
per-parent-device `num_child_bus` counters.  Parent devices are identified by
an abstract key of type `Nat`. -/
structure NamingState where
  autoIds : String → Nat
  numChildBus : Nat → Nat

/-- One bus creation request: the concrete type name, the optional parent
device, and the optional explicit name. -/
structure BusCreation where
  typename : String
  parent : Option Nat
  name : Option String

/-- The outcome of one `qbus_realize`: the chosen bus name and the parent it
was attached under. -/
structure BusRec where
  name : String
  parent : Option Nat
deriving DecidableEq, Repr

/-- `qbus_realize`'s naming logic (`env` maps a parent device to its optional
explicit `id`): an explicit name wins; else a parent with an id gives
`"{id}.{num_child_bus}"`; else the lowercased `"{typename}.{automatic_ids}"`
with the per-type counter bumped.  `num_child_bus` of the parent is always
incremented when a parent is present. -/
def qbus_realize (env : Nat → Option String) (st : NamingState) (e : BusCreation) :
    NamingState × BusRec :=
  let (name, st1) :=
    match e.name with
    | some n => (n, st)
    | none =>
      match e.parent with
      | some p =>
        match env p with
        | some pid => (pid ++ "." ++ Nat.repr (st.numChildBus p), st)
        | none =>
          (lowerString (e.typename ++ "." ++ Nat.repr (st.autoIds e.typename)),
           { st with autoIds := fun t =>
               if t = e.typename then st.autoIds t + 1 else st.autoIds t })
      | none =>
        (lowerString (e.typename ++ "." ++ Nat.repr (st.autoIds e.typename)),
         { st with autoIds := fun t =>
             if t = e.typename then st.autoIds t + 1 else st.autoIds t })
  let st2 :=
    match e.parent with
    | some p =>
      { st1 with numChildBus := fun q =>
          if q = p then st1.numChildBus q + 1 else st1.numChildBus q }
    | none => st1
  (st2, { name := name, parent := e.parent })

/-- Run a sequence of bus creations, collecting the produced records. -/
def qbus_run (env : Nat → Option String) (st : NamingState) :
    List BusCreation → List BusRec
  | [] => []
  | e :: es =>
    let (st', r) := qbus_realize env st e
    r :: qbus_run env st' es

/-! ## Bus realize/unrealize (`hw/core/bus.c`, `bus_set_realized`) -/

/-- Observable events of one `bus_set_realized` call: which hooks ran and
which children had their `realized` property set to false, in order. -/
inductive BEvent where
  | realizeHook
  | unrealizeHook
  | childUnrealize (idx : Nat)
deriving DecidableEq, Repr

/-- A child device as seen by `bus_set_realized`: its `realized` flag and the
outcome of `object_property_set_bool(dev, false, "realized")` on it (the
device-side semantics live outside this subsystem). -/
structure DeviceM (ε : Type) where
  realized : Bool
  unrealizeOutcome : Except ε Unit

/-- A bus: its `realized` flag and its ordered child list. -/
structure BusM (ε : Type) where
  realized : Bool
  children : List (DeviceM ε)

/-- The `BusClass` hooks, with their outcomes as data (`none` models an
absent hook). -/
structure BusClassM (ε : Type) where
  realize : Option (Except ε Unit)
  unrealize : Option (Except ε Unit)

/-- The child loop of `bus_set_realized` on `value = false`: set each child's
`realized` to false in order, stopping at the first failure. -/
def unrealizeChildren {ε : Type} :
    List (DeviceM ε) → Nat → List (DeviceM ε) × Option ε × List BEvent
  | [], _ => ([], none, [])
  | d :: ds, i =>
    match d.unrealizeOutcome with
    | .error e => (d :: ds, some e, [.childUnrealize i])
    | .ok _ =>
      let (ds', err, tr) := unrealizeChildren ds (i + 1)
      ({ d with realized := false } :: ds', err, .childUnrealize i :: tr)

/-- `bus_set_realized`: returns the updated bus, the propagated error (if
any) and the trace of observable events. -/
def bus_set_realized {ε : Type} (bc : BusClassM ε) (bus : BusM ε) (value : Bool) :
    BusM ε × Option ε × List BEvent :=
  if value ∧ ¬bus.realized then
    match bc.realize with
    | some (.error e) => (bus, some e, [.realizeHook])
    | some (.ok _) => ({ bus with realized := value }, none, [.realizeHook])
    | none => ({ bus with realized := value }, none, [])
  else if ¬value ∧ bus.realized then
    let (ch', errC, tr) := unrealizeChildren bus.children 0
    match errC with
    | some e => ({ bus with children := ch' }, some e, tr)
    | none =>
      match bc.unrealize with
      | some (.error e) => ({ bus with children := ch' }, some e, tr ++ [.unrealizeHook])
      | some (.ok _) =>
        ({ bus with children := ch', realized := value }, none, tr ++ [.unrealizeHook])
      | none => ({ bus with children := ch', realized := value }, none, tr)
  else
    ({ bus with realized := value }, none, [])

/-! ## Flip properties (`qom/helpers.c`) -/

/-- Errors surfaced by a flip property setter: a hook's own error, or the
`QERR_PERMISSION_DENIED` raised when closing a property that has an open
hook but no close hook. -/
inductive FlipErr (ε : Type) where
  | permissionDenied
  | hook (e : ε)
deriving DecidableEq, Repr

/-- Events of one flip setter call. -/
inductive FEvent where
  | openHook
  | closeHook
deriving DecidableEq, Repr

/-- A `FlipProperty`: the pointed-to boolean and the optional open/close
hooks with their outcomes as data. -/
structure FlipProperty (ε : Type) where
  val : Bool
  openHook : Option (Except ε Unit)
  closeHook : Option (Except ε Unit)

/-- `flip_open`. -/
def flip_open {ε : Type} (prop : FlipProperty ε) :
    FlipProperty ε × Option (FlipErr ε) × List FEvent :=
  if prop.val then
    (prop, none, [])
  else
    match prop.openHook with
    | some (.error e) => (prop, some (.hook e), [.openHook])
    | some (.ok _) => ({ prop with val := true }, none, [.openHook])
    | none => ({ prop with val := true }, none, [])

/-- `flip_close`. -/
def flip_close {ε : Type} (prop : FlipProperty ε) :
    FlipProperty ε × Option (FlipErr ε) × List FEvent :=
  if ¬prop.val then
    (prop, none, [])
  else if prop.openHook.isSome ∧ prop.closeHook.isNone then
    (prop, some .permissionDenied, [])
  else
    match prop.closeHook with
    | some (.error e) => (prop, some (.hook e), [.closeHook])
    | some (.ok _) => ({ prop with val := false }, none, [.closeHook])
    | none => ({ prop with val := false }, none, [])

/-- `flip_set` (after the boolean value has been parsed). -/
def flip_set {ε : Type} (prop : FlipProperty ε) (value : Bool) :
    FlipProperty ε × Option (FlipErr ε) × List FEvent :=
  if value then flip_open prop else flip_close prop

/-- Decidable form of "option `ao` of `a` finds a same-named option in `b`
whose value set differs structurally": the per-option mismatch test made by
the second loop of `slot_options_can_be_combined`. -/
def slot_option_differs (b : List SlotOption) (ao : SlotOption) : Bool :=
  match find_slot_option b ao.option with
  | some bo => qobject_compare bo.values ao.values ≠ 0
  | none => false

/-- Decimal digit characters of a natural number, most significant first
(reference function used to reason about `Nat.repr`). -/
def decRepr (n : Nat) : List Char :=
  if n < 10 then [Nat.digitChar n]
  else decRepr (n / 10) ++ [Nat.digitChar (n % 10)]
decreasing_by exact Nat.div_lt_self (by omega) (by omega)

/-! ## General lemmas -/

/-- Size of a `QObj` member of a list is smaller than the list's size. -/
theorem sizeOf_lt_of_mem_qlist {x : QObj} {l : List QObj} (h : x ∈ l) :
    sizeOf x < 1 + sizeOf l := by
  induction l with
  | nil => cases h
  | cons a as ih =>
    rcases List.mem_cons.mp h with rfl | h'
    · simp only [List.cons.sizeOf_spec]; omega
    · have := ih h'
      simp only [List.cons.sizeOf_spec]; omega

/-- Structural induction principle for `QObj` that provides membership
hypotheses for list elements. -/
theorem QObj.inductionOn (P : QObj → Prop)
    (hnull : P .qnull) (hnum : ∀ n, P (.qnum n)) (hstr : ∀ s, P (.qstring s))
    (hbool : ∀ b, P (.qbool b))
    (hlist : ∀ l, (∀ x ∈ l, P x) → P (.qlist l)) : ∀ q, P q
  | .qnull => hnull
  | .qnum n => hnum n
  | .qstring s => hstr s
  | .qbool b => hbool b
  | .qlist l => hlist l (fun x hx =>
      have : sizeOf x < 1 + sizeOf l := sizeOf_lt_of_mem_qlist hx
      QObj.inductionOn P hnull hnum hstr hbool hlist x)
termination_by q => sizeOf q
decreasing_by simp only [QObj.qlist.sizeOf_spec]; omega

theorem cmpInt_eq_zero_iff {a b : Int} : cmpInt a b = 0 ↔ a = b := by
  unfold cmpInt; split <;> rename_i h
  · omega
  · split <;> rename_i h' <;> omega

theorem cmpChar_eq_zero_iff {a b : Char} : cmpChar a b = 0 ↔ a = b := by
  unfold cmpChar
  rw [cmpInt_eq_zero_iff]
  constructor
  · intro h; exact Char.eq_of_val_eq (UInt32.toNat.inj (by exact_mod_cast h))
  · intro h; rw [h]

theorem cmpCharList_eq_zero_iff : ∀ a b : List Char, cmpCharList a b = 0 ↔ a = b
  | [], [] => by norm_num [cmpCharList]
  | [], _ :: _ =>
      iff_of_false (by norm_num [cmpCharList]) (fun h => List.noConfusion h)
  | _ :: _, [] =>
      iff_of_false (by norm_num [cmpCharList]) (fun h => List.noConfusion h)
  | x :: xs, y :: ys => by
      simp only [cmpCharList, List.cons.injEq]
      by_cases hxy : cmpChar x y = 0
      · rw [if_pos hxy, cmpCharList_eq_zero_iff xs ys]
        simp [cmpChar_eq_zero_iff.mp hxy]
      · rw [if_neg hxy]
        constructor
        · intro h; exact absurd h hxy
        · rintro ⟨h1, _⟩; exact absurd (cmpChar_eq_zero_iff.mpr h1) hxy

theorem cmpString_eq_zero_iff {a b : String} : cmpString a b = 0 ↔ a = b := by
  unfold cmpString
  rw [cmpCharList_eq_zero_iff]
  constructor
  · intro h
    cases a; cases b; exact congrArg String.mk h
  · intro h; rw [h]

theorem cmpBool_eq_zero_iff {a b : Bool} : cmpBool a b = 0 ↔ a = b := by
  unfold cmpBool
  cases a <;> cases b <;> simp

theorem qtypeRank_injective {a b : QTy} (h : qtypeRank a = qtypeRank b) : a = b := by
  cases a <;> cases b <;> first | rfl | (exact absurd h (by decide))

/-- Lexicographic list comparison returns zero exactly on equal lists,
given that the comparator already does so on the elements of the left list. -/
theorem qlist_compare_eq_zero_iff : ∀ (l m : List QObj),
    (∀ x ∈ l, ∀ b, qobject_compare x b = 0 ↔ x = b) →
    (qlist_compare l m = 0 ↔ l = m)
  | [], [], _ => by norm_num [qlist_compare]
  | [], _ :: _, _ =>
      iff_of_false (by norm_num [qlist_compare]) (fun h => List.noConfusion h)
  | _ :: _, [], _ =>
      iff_of_false (by norm_num [qlist_compare]) (fun h => List.noConfusion h)
  | x :: xs, y :: ys, ih => by
      simp only [qlist_compare, List.cons.injEq]
      by_cases hxy : qobject_compare x y = 0
      · rw [if_pos hxy]
        have hx : x = y := (ih x (List.mem_cons_self x xs) y).mp hxy
        rw [qlist_compare_eq_zero_iff xs ys (fun z hz => ih z (List.mem_cons_of_mem _ hz))]
        simp [hx]
      · rw [if_neg hxy]
        constructor
        · intro h; exact absurd h hxy
        · rintro ⟨h1, _⟩; exact absurd ((ih x (List.mem_cons_self x xs) y).mpr h1) hxy

/-- `qobject_compare` returns zero exactly on structurally equal values. -/
theorem qobject_compare_eq_zero_iff : ∀ a b : QObj, qobject_compare a b = 0 ↔ a = b := by
  intro a
  induction a using QObj.inductionOn with
  | hnull =>
    intro b; cases b <;>
      first
        | (simp [qobject_compare]; done)
        | (exact iff_of_false
            (by simp only [qobject_compare, qobject_type, qtypeRank]; norm_num [cmpInt])
            (fun h => QObj.noConfusion h))
  | hnum n =>
    intro b; cases b <;>
      first
        | (simp only [qobject_compare, QObj.qnum.injEq]; exact cmpInt_eq_zero_iff)
        | (exact iff_of_false
            (by simp only [qobject_compare, qobject_type, qtypeRank]; norm_num [cmpInt])
            (fun h => QObj.noConfusion h))
  | hstr s =>
    intro b; cases b <;>
      first
        | (simp only [qobject_compare, QObj.qstring.injEq]; exact cmpString_eq_zero_iff)
        | (exact iff_of_false
            (by simp only [qobject_compare, qobject_type, qtypeRank]; norm_num [cmpInt])
            (fun h => QObj.noConfusion h))
  | hbool v =>
    intro b; cases b <;>
      first
        | (simp only [qobject_compare, QObj.qbool.injEq]; exact cmpBool_eq_zero_iff)
        | (exact iff_of_false
            (by simp only [qobject_compare, qobject_type, qtypeRank]; norm_num [cmpInt])
            (fun h => QObj.noConfusion h))
  | hlist l ih =>
    intro b; cases b <;>
      first
        | (simp only [qobject_compare, QObj.qlist.injEq]
           exact qlist_compare_eq_zero_iff l _ ih)
        | (exact iff_of_false
            (by simp only [qobject_compare, qobject_type, qtypeRank]; norm_num [cmpInt])
            (fun h => QObj.noConfusion h))


theorem compare_strList_eq_zero_iff : ∀ a b : List String, compare_strList a b = 0 ↔ a = b
  | [], [] => by norm_num [compare_strList]
  | [], _ :: _ =>
      iff_of_false (by norm_num [compare_strList]) (fun h => List.noConfusion h)
  | _ :: _, [] =>
      iff_of_false (by norm_num [compare_strList]) (fun h => List.noConfusion h)
  | x :: xs, y :: ys => by
      simp only [compare_strList, List.cons.injEq]
      by_cases h : cmpString x y = 0
      · rw [if_neg (by simpa using h), compare_strList_eq_zero_iff xs ys]
        simp [cmpString_eq_zero_iff.mp h]
      · rw [if_pos (by simpa using h)]
        constructor
        · intro hc; exact absurd hc h
        · rintro ⟨h1, _⟩; exact absurd (cmpString_eq_zero_iff.mpr h1) h

/-! ## Claim theorems -/

/-- C9: `simplify (normalize v) = v` for every scalar `v` (null, number,
string or boolean), and `normalize` followed by `simplify` returns every list
of two or more elements unchanged. -/
theorem C9_simplify_normalize_roundtrip :
    (∀ v : QObj, qobject_type v ≠ .tlist →
        valuelist_simplify (valuelist_normalize v) = v)
    ∧ (∀ l : List QObj, 2 ≤ l.length →
        valuelist_simplify (valuelist_normalize (.qlist l)) = .qlist l) := by
  constructor
  · intro v h
    cases v <;> first | rfl | (exact absurd rfl h)
  · intro l h
    cases l with
    | nil => simp at h
    | cons x xs =>
      cases xs with
      | nil => simp at h
      | cons y ys => rfl

/-- Witness for C9 at the scalar `5` and the two-element list `[1, 2]`. -/
theorem C9_simplify_normalize_roundtrip_witness :
    valuelist_simplify (valuelist_normalize (.qnum 5)) = .qnum 5
    ∧ valuelist_simplify (valuelist_normalize (.qlist [.qnum 1, .qnum 2]))
        = .qlist [.qnum 1, .qnum 2] :=
  ⟨C9_simplify_normalize_roundtrip.1 (.qnum 5) (by decide),
   C9_simplify_normalize_roundtrip.2 [.qnum 1, .qnum 2] (by decide)⟩

/-- C2 fails as stated: the value set written `[1, 10]` is a set whose
elements are the two scalars `1` and `10` (a range is an element that is
itself a two-element list), so `contains` with query `5` is false; and a
one-element list entry holding a non-scalar matches a structurally equal
query, though its shape is neither a scalar nor a 1- or 2-element scalar
list. -/
theorem C2_contains_counterexample :
    valuelist_contains (.qlist [.qnum 1, .qnum 10]) (.qnum 5) = false
    ∧ valuelist_contains (.qlist [.qlist [.qlist [.qnum 1]]]) (.qlist [.qnum 1]) = true := by
  constructor <;> rfl

/-- C2 (amended): `contains` is true for query `5` against the value set
`[[1, 10]]` whose sole element is the range `[1, 10]`, false for `11`; true
for the bare-scalar value set `"a"` with query `"a"`, false with `"b"`; a
range element matches only when the query's kind is number or string and
matches both endpoints' type with low ≤ query ≤ high; a list element of
length other than 1 or 2 never matches; and a one-element list element
matches exactly the structurally equal query, whatever the element's kind. -/
theorem C2_contains_amended :
    (valuelist_contains (.qlist [.qlist [.qnum 1, .qnum 10]]) (.qnum 5) = true
      ∧ valuelist_contains (.qlist [.qlist [.qnum 1, .qnum 10]]) (.qnum 11) = false)
    ∧ (valuelist_contains (.qstring "a") (.qstring "a") = true
      ∧ valuelist_contains (.qstring "a") (.qstring "b") = false)
    ∧ (∀ a b v : QObj, valuelist_entry_contains (.qlist [a, b]) v = true →
        (qobject_type v = .tnum ∨ qobject_type v = .tstring)
        ∧ qobject_type a = qobject_type v ∧ qobject_type b = qobject_type v
        ∧ qobject_compare a v ≤ 0 ∧ qobject_compare v b ≤ 0)
    ∧ (∀ (l : List QObj) (v : QObj), l.length ≠ 1 → l.length ≠ 2 →
        valuelist_entry_contains (.qlist l) v = false)
    ∧ (∀ x v : QObj,
        valuelist_entry_contains (.qlist [x]) v = true ↔ qobject_compare x v = 0) := by
  refine ⟨⟨rfl, rfl⟩, ⟨rfl, rfl⟩, ?_, ?_, ?_⟩
  · intro a b v h
    exact of_decide_eq_true h
  · intro l v h1 h2
    cases l with
    | nil => rfl
    | cons a t =>
      cases t with
      | nil => simp at h1
      | cons b t2 =>
        cases t2 with
        | nil => simp at h2
        | cons c t3 => rfl
  · intro x v
    constructor
    · intro h; exact of_decide_eq_true h
    · intro h; exact decide_eq_true h

/-- Witness for C2 (amended) at the range `[1, 10]` with query `5`, the
three-element list shape, and the one-element list `["a"]`. -/
theorem C2_contains_amended_witness :
    ((qobject_type (QObj.qnum 5) = .tnum ∨ qobject_type (QObj.qnum 5) = .tstring)
      ∧ qobject_type (QObj.qnum 1) = qobject_type (QObj.qnum 5)
      ∧ qobject_type (QObj.qnum 10) = qobject_type (QObj.qnum 5)
      ∧ qobject_compare (.qnum 1) (.qnum 5) ≤ 0
      ∧ qobject_compare (.qnum 5) (.qnum 10) ≤ 0)
    ∧ valuelist_entry_contains (.qlist [.qnum 1, .qnum 2, .qnum 3]) (.qnum 1) = false
    ∧ (valuelist_entry_contains (.qlist [.qstring "a"]) (.qstring "a") = true
        ↔ qobject_compare (.qstring "a") (.qstring "a") = 0) :=
  ⟨C2_contains_amended.2.2.1 (.qnum 1) (.qnum 10) (.qnum 5) (by rfl),
   C2_contains_amended.2.2.2.1 [.qnum 1, .qnum 2, .qnum 3] (.qnum 1)
     (by decide) (by decide),
   C2_contains_amended.2.2.2.2 (.qstring "a") (.qstring "a")⟩

/-- C1 fails as stated: two identical descriptors that both carry the
`device` field are reported non-combinable even though they agree on the
presence of the field and their option sets compare equal. -/
theorem C1_can_combine_counterexample :
    slots_can_be_combined
      { available := true, hotpluggable := true, has_count := false, count := 0,
        opts_complete := true, has_device := true, device := "d",
        device_types := [], opts := [] }
      { available := true, hotpluggable := true, has_count := false, count := 0,
        opts_complete := true, has_device := true, device := "d",
        device_types := [], opts := [] } = none
    ∧ slot_options_can_be_combined
        ([] : List SlotOption) ([] : List SlotOption) = some none := by
  constructor <;> rfl

/-- C1 (amended): `slots_can_be_combined` returns false precisely when one of
`available`, `hotpluggable`, presence of the count field, or `opts_complete`
differs, or the device field is present in `a` or in `b` (its mere presence
on either side, even on both, makes the slots non-combinable), or the
ordered accepted-device-types lists differ, or the option-set comparison
fails. -/
theorem C1_can_combine_none_iff (a b : DeviceSlotInfo) :
    slots_can_be_combined a b = none ↔
      (a.available ≠ b.available ∨ a.hotpluggable ≠ b.hotpluggable
        ∨ a.has_count ≠ b.has_count ∨ a.opts_complete ≠ b.opts_complete
        ∨ a.has_device = true ∨ b.has_device = true
        ∨ a.device_types ≠ b.device_types
        ∨ slot_options_can_be_combined a.opts b.opts = none) := by
  unfold slots_can_be_combined
  have hdt : compare_strList a.device_types b.device_types = 0 ↔
      a.device_types = b.device_types :=
    compare_strList_eq_zero_iff a.device_types b.device_types
  split
  · rename_i hg
    simp only [true_iff]
    rcases hg with h | h | h | h | h | h | h
    all_goals tauto
  · rename_i hg
    push_neg at hg
    obtain ⟨h1, h2, h3, h4, h5, h6, h7⟩ := hg
    have heq : a.device_types = b.device_types := hdt.mp h7
    constructor
    · intro h
      tauto
    · rintro (h | h | h | h | h | h | h | h)
      all_goals first
        | exact h
        | tauto

/-- Simplify never loses the list of elements: normalizing its result gives
back the original list. -/
theorem valuelist_normalize_simplify : ∀ l : List QObj,
    valuelist_normalize (valuelist_simplify l) = l
  | [] => rfl
  | [o] => by cases o <;> rfl
  | _ :: _ :: _ => rfl

/-- Looking an option up after `extend_slot_option` finds the first
same-named option with its values extended. -/
theorem find_extend_slot_option (n : String) (vals : QObj) :
    ∀ opts : List SlotOption,
      find_slot_option (extend_slot_option opts n vals) n
        = (find_slot_option opts n).map
            (fun ao => { ao with values := valuelist_extend ao.values vals })
  | [] => rfl
  | o :: rest => by
      unfold find_slot_option extend_slot_option
      by_cases h : o.option = n
      · rw [if_pos h]
        rw [List.find?_cons_of_pos _ (by simpa using h),
            List.find?_cons_of_pos _ (by simpa using h)]
        rfl
      · rw [if_neg h]
        rw [List.find?_cons_of_neg _ (by simpa using h),
            List.find?_cons_of_neg _ (by simpa using h)]
        exact find_extend_slot_option n vals rest

/-- C4: the two descriptors that differ only in their `bus` option values
`"ide.0"` and `"ide.1"` are combinable with mismatching option `"bus"`, and
merging yields the descriptor whose `bus` value set is the list
`["ide.0", "ide.1"]`; in general the merge adds `b`'s count into `a`'s
exactly when `a` has a count, and replaces the mismatching option's value
set by its extension with `b`'s values, the extension being the in-order
concatenation of the two normalized value lists, re-simplified. -/
theorem C4_merge_bus_example :
    (slots_can_be_combined
        { available := true, hotpluggable := true, has_count := false, count := 0,
          opts_complete := true, has_device := false, device := "",
          device_types := ["ide-device"], opts := [⟨"bus", .qstring "ide.0"⟩] }
        { available := true, hotpluggable := true, has_count := false, count := 0,
          opts_complete := true, has_device := false, device := "",
          device_types := ["ide-device"], opts := [⟨"bus", .qstring "ide.1"⟩] }
        = some (some "bus"))
    ∧ (slots_combine
        { available := true, hotpluggable := true, has_count := false, count := 0,
          opts_complete := true, has_device := false, device := "",
          device_types := ["ide-device"], opts := [⟨"bus", .qstring "ide.0"⟩] }
        { available := true, hotpluggable := true, has_count := false, count := 0,
          opts_complete := true, has_device := false, device := "",
          device_types := ["ide-device"], opts := [⟨"bus", .qstring "ide.1"⟩] }
        (some "bus")
        = { available := true, hotpluggable := true, has_count := false, count := 0,
            opts_complete := true, has_device := false, device := "",
            device_types := ["ide-device"],
            opts := [⟨"bus", .qlist [.qstring "ide.0", .qstring "ide.1"]⟩] })
    ∧ (∀ (a b : DeviceSlotInfo) (k : Option String),
        (slots_combine a b k).count
          = if a.has_count then a.count + b.count else a.count)
    ∧ (∀ (a b : DeviceSlotInfo) (n : String) (ao bo : SlotOption),
        find_slot_option a.opts n = some ao →
        find_slot_option b.opts n = some bo →
        find_slot_option (slots_combine a b (some n)).opts n
          = some { ao with values := valuelist_extend ao.values bo.values })
    ∧ (∀ v w : QObj, valuelist_normalize (valuelist_extend v w)
        = valuelist_normalize v ++ valuelist_normalize w) := by
  refine ⟨rfl, rfl, ?_, ?_, ?_⟩
  · intro a b k
    simp only [slots_combine, slots_combine_opts]
    cases k with
    | none => cases ha : a.has_count <;> simp [ha]
    | some n =>
      cases hf : find_slot_option b.opts n <;>
        cases ha : a.has_count <;> simp [ha, hf]
  · intro a b n ao bo h1 h2
    simp only [slots_combine, slots_combine_opts]
    rw [h2]
    have hopts : (if a.has_count = true then { a with count := a.count + b.count } else a).opts
        = a.opts := by split <;> rfl
    simp only [hopts]
    rw [find_extend_slot_option, h1]
    rfl
  · intro v w
    exact valuelist_normalize_simplify _

/-- Witness for C4's conditional parts: count addition with a present count,
and the option-value extension, at concrete descriptors. -/
theorem C4_merge_bus_example_witness :
    ((slots_combine
        { available := true, hotpluggable := true, has_count := true, count := 2,
          opts_complete := true, has_device := false, device := "",
          device_types := [], opts := [⟨"bus", .qstring "x"⟩] }
        { available := true, hotpluggable := true, has_count := true, count := 3,
          opts_complete := true, has_device := false, device := "",
          device_types := [], opts := [⟨"bus", .qstring "y"⟩] }
        (some "bus")).count
      = if true then (2 : Int) + 3 else 2)
    ∧ find_slot_option (slots_combine
        { available := true, hotpluggable := true, has_count := false, count := 0,
          opts_complete := true, has_device := false, device := "",
          device_types := [], opts := [⟨"bus", .qstring "x"⟩] }
        { available := true, hotpluggable := true, has_count := false, count := 0,
          opts_complete := true, has_device := false, device := "",
          device_types := [], opts := [⟨"bus", .qstring "y"⟩] }
        (some "bus")).opts "bus"
      = some { option := "bus",
               values := valuelist_extend (.qstring "x") (.qstring "y") } :=
  ⟨C4_merge_bus_example.2.2.1 _ _ (some "bus"),
   C4_merge_bus_example.2.2.2.1 _ _ "bus" ⟨"bus", .qstring "x"⟩ ⟨"bus", .qstring "y"⟩
     rfl rfl⟩

/-- No entry of `l` combines with `s`: the scan finds nothing. -/
theorem slot_list_try_combine_none : ∀ (l : List DeviceSlotInfo) (s : DeviceSlotInfo),
    (∀ z ∈ l, slots_try_combine z s = none) → slot_list_try_combine l s = none
  | [], _, _ => rfl
  | x :: xs, s, h => by
      simp only [slot_list_try_combine]
      rw [h x (List.mem_cons_self x xs)]
      rw [slot_list_try_combine_none xs s (fun z hz => h z (List.mem_cons_of_mem _ hz))]
      rfl

/-- The scan replaces exactly the first combinable entry. -/
theorem slot_list_try_combine_first :
    ∀ (l1 : List DeviceSlotInfo) (x y s : DeviceSlotInfo) (l2 : List DeviceSlotInfo),
      (∀ z ∈ l1, slots_try_combine z s = none) →
      slots_try_combine x s = some y →
      slot_list_try_combine (l1 ++ x :: l2) s = some (l1 ++ y :: l2)
  | [], x, y, s, l2, _, hx => by
      rw [List.nil_append, List.nil_append]
      simp only [slot_list_try_combine]
      rw [hx]
  | z :: zs, x, y, s, l2, h, hx => by
      rw [List.cons_append, List.cons_append]
      simp only [slot_list_try_combine]
      rw [h z (List.mem_cons_self z zs)]
      rw [slot_list_try_combine_first zs x y s l2
            (fun w hw => h w (List.mem_cons_of_mem _ hw)) hx]
      rfl

/-- C5: `slot_list_add_slot` merges the new slot into the first existing
entry (in current list order) that combines with it and stops; when no entry
combines it prepends the new slot as the new head; hence two non-combinable
slots added to an empty list end up in reverse insertion order. -/
theorem C5_add_slot_first_match_or_prepend :
    (∀ (l1 l2 : List DeviceSlotInfo) (x y s : DeviceSlotInfo),
        (∀ z ∈ l1, slots_try_combine z s = none) →
        slots_try_combine x s = some y →
        slot_list_add_slot (l1 ++ x :: l2) s = l1 ++ y :: l2)
    ∧ (∀ (l : List DeviceSlotInfo) (s : DeviceSlotInfo),
        (∀ z ∈ l, slots_try_combine z s = none) →
        slot_list_add_slot l s = s :: l)
    ∧ (∀ s1 s2 : DeviceSlotInfo, slots_try_combine s1 s2 = none →
        slot_list_add_slot (slot_list_add_slot [] s1) s2 = [s2, s1]) := by
  have hmerge : ∀ (l1 l2 : List DeviceSlotInfo) (x y s : DeviceSlotInfo),
      (∀ z ∈ l1, slots_try_combine z s = none) →
      slots_try_combine x s = some y →
      slot_list_add_slot (l1 ++ x :: l2) s = l1 ++ y :: l2 := by
    intro l1 l2 x y s h hx
    unfold slot_list_add_slot
    rw [slot_list_try_combine_first l1 x y s l2 h hx]
  have hprepend : ∀ (l : List DeviceSlotInfo) (s : DeviceSlotInfo),
      (∀ z ∈ l, slots_try_combine z s = none) →
      slot_list_add_slot l s = s :: l := by
    intro l s h
    unfold slot_list_add_slot
    rw [slot_list_try_combine_none l s h]
  refine ⟨hmerge, hprepend, ?_⟩
  intro s1 s2 h12
  rw [hprepend [] s1 (by intro z hz; cases hz)]
  rw [hprepend [s1] s2 ?_]
  intro z hz
  rw [List.mem_singleton.mp hz]
  exact h12

/-- Witness for C5 at two concrete slots that differ in `available` (hence
never combine) and a combinable pair. -/
theorem C5_add_slot_first_match_or_prepend_witness :
    slot_list_add_slot
        (slot_list_add_slot []
          { available := true, hotpluggable := true, has_count := false, count := 0,
            opts_complete := true, has_device := false, device := "",
            device_types := [], opts := [] })
        { available := false, hotpluggable := true, has_count := false, count := 0,
          opts_complete := true, has_device := false, device := "",
          device_types := [], opts := [] }
      = [{ available := false, hotpluggable := true, has_count := false, count := 0,
           opts_complete := true, has_device := false, device := "",
           device_types := [], opts := [] },
         { available := true, hotpluggable := true, has_count := false, count := 0,
           opts_complete := true, has_device := false, device := "",
           device_types := [], opts := [] }] :=
  C5_add_slot_first_match_or_prepend.2.2
    { available := true, hotpluggable := true, has_count := false, count := 0,
      opts_complete := true, has_device := false, device := "",
      device_types := [], opts := [] }
    { available := false, hotpluggable := true, has_count := false, count := 0,
      opts_complete := true, has_device := false, device := "",
      device_types := [], opts := [] }
    rfl

/-- C7: setting `realized` to true on an unrealized bus whose realize hook
fails leaves the flag false and returns that failure synchronously to the
caller; the flag becomes true exactly when the hook is absent or succeeds.
The same holds for `flip_open`'s open hook. -/
theorem C7_realize_failure_stays_unrealized :
    (∀ (ε : Type) (bc : BusClassM ε) (bus : BusM ε) (e : ε),
        bus.realized = false → bc.realize = some (.error e) →
        bus_set_realized bc bus true = (bus, some e, [.realizeHook]))
    ∧ (∀ (ε : Type) (bc : BusClassM ε) (bus : BusM ε),
        bus.realized = false →
        ((bus_set_realized bc bus true).1.realized = true ↔
          bc.realize = none ∨ bc.realize = some (.ok ())))
    ∧ (∀ (ε : Type) (prop : FlipProperty ε) (e : ε),
        prop.val = false → prop.openHook = some (.error e) →
        flip_open prop = (prop, some (.hook e), [.openHook])) := by
  refine ⟨?_, ?_, ?_⟩
  · intro ε bc bus e h1 h2
    simp [bus_set_realized, h1, h2]
  · intro ε bc bus h1
    cases hr : bc.realize with
    | none => simp [bus_set_realized, h1, hr]
    | some r =>
      cases r with
      | error e => simp [bus_set_realized, h1, hr]
      | ok u => cases u; simp [bus_set_realized, h1, hr]
  · intro ε prop e h1 h2
    simp [flip_open, h1, h2]

/-- Witness for C7 with a one-error hook over `ε = String`. -/
theorem C7_realize_failure_stays_unrealized_witness :
    bus_set_realized (ε := String) ⟨some (.error "boom"), none⟩ ⟨false, []⟩ true
      = (⟨false, []⟩, some "boom", [.realizeHook])
    ∧ ((bus_set_realized (ε := String) ⟨some (.ok ()), none⟩ ⟨false, []⟩ true).1.realized
        = true ↔ (some (Except.ok ()) : Option (Except String Unit)) = none
            ∨ (some (Except.ok ()) : Option (Except String Unit)) = some (.ok ()))
    ∧ flip_open (ε := String) ⟨false, some (.error "no"), none⟩
      = (⟨false, some (.error "no"), none⟩, some (.hook "no"), [.openHook]) :=
  ⟨C7_realize_failure_stays_unrealized.1 String ⟨some (.error "boom"), none⟩ ⟨false, []⟩
      "boom" rfl rfl,
   C7_realize_failure_stays_unrealized.2.1 String ⟨some (.ok ()), none⟩ ⟨false, []⟩ rfl,
   C7_realize_failure_stays_unrealized.2.2 String ⟨false, some (.error "no"), none⟩
      "no" rfl rfl⟩

/-- C10: setting the `realized` property (or any flip property) to the value
it already holds is a complete no-op: no hook runs, no child is visited, no
error is reported and the state is returned unchanged, in both the
already-true and the already-false case and for arbitrary hooks. -/
theorem C10_set_same_value_noop :
    (∀ (ε : Type) (bc : BusClassM ε) (bus : BusM ε) (v : Bool),
        v = bus.realized → bus_set_realized bc bus v = (bus, none, []))
    ∧ (∀ (ε : Type) (prop : FlipProperty ε) (v : Bool),
        v = prop.val → flip_set prop v = (prop, none, [])) := by
  constructor
  · intro ε bc bus v h
    subst h
    cases bus with
    | mk r ch => cases r <;> simp [bus_set_realized]
  · intro ε prop v h
    subst h
    cases prop with
    | mk val oh ch => cases val <;> simp [flip_set, flip_open, flip_close]

/-- Witness for C10 at a bus with hooks installed and both flip polarities. -/
theorem C10_set_same_value_noop_witness :
    bus_set_realized (ε := String) ⟨some (.error "x"), some (.error "y")⟩
        ⟨true, [⟨true, .error "z"⟩]⟩ true
      = (⟨true, [⟨true, .error "z"⟩]⟩, none, [])
    ∧ flip_set (ε := String) ⟨false, some (.error "x"), none⟩ false
      = (⟨false, some (.error "x"), none⟩, none, []) :=
  ⟨C10_set_same_value_noop.1 String ⟨some (.error "x"), some (.error "y")⟩
      ⟨true, [⟨true, .error "z"⟩]⟩ true rfl,
   C10_set_same_value_noop.2 String ⟨false, some (.error "x"), none⟩ false rfl⟩

/-- When every child unrealizes cleanly, the child loop unrealizes all of
them in order and reports no error. -/
theorem unrealizeChildren_all_ok {ε : Type} :
    ∀ (ds : List (DeviceM ε)) (i : Nat),
      (∀ d ∈ ds, d.unrealizeOutcome = .ok ()) →
      unrealizeChildren ds i
        = (ds.map (fun d => { d with realized := false }), none,
           (List.range' i ds.length).map BEvent.childUnrealize)
  | [], _, _ => rfl
  | d :: ds, i, h => by
      have ho := h d (List.mem_cons_self d ds)
      simp only [unrealizeChildren, ho]
      rw [unrealizeChildren_all_ok ds (i + 1)
            (fun x hx => h x (List.mem_cons_of_mem _ hx))]
      simp [List.range'_succ, ho]

/-- The child loop stops at the first failing child: the prefix is
unrealized, the failing child and the remaining siblings are untouched, and
the failure is reported. -/
theorem unrealizeChildren_first_error {ε : Type} :
    ∀ (pre : List (DeviceM ε)) (d : DeviceM ε) (post : List (DeviceM ε)) (i : Nat) (e : ε),
      (∀ x ∈ pre, x.unrealizeOutcome = .ok ()) →
      d.unrealizeOutcome = .error e →
      unrealizeChildren (pre ++ d :: post) i
        = (pre.map (fun x => { x with realized := false }) ++ d :: post, some e,
           (List.range' i pre.length).map BEvent.childUnrealize
             ++ [BEvent.childUnrealize (i + pre.length)])
  | [], d, post, i, e, _, hd => by
      simp only [List.nil_append, unrealizeChildren]
      rw [hd]
      simp
  | x :: xs, d, post, i, e, h, hd => by
      have ho := h x (List.mem_cons_self x xs)
      simp only [List.cons_append, unrealizeChildren, ho, List.append_eq]
      rw [unrealizeChildren_first_error xs d post (i + 1) e
            (fun z hz => h z (List.mem_cons_of_mem _ hz)) hd]
      simp only [List.length_cons, List.range'_succ, List.map_cons, List.cons_append,
        List.cons.injEq, true_and, ho]
      have : i + 1 + xs.length = i + (xs.length + 1) := by omega
      rw [this]

/-- C8: on `realized := false` over a realized bus, every child is
unrealized in child-list order before the bus's own unrealize hook runs, and
the first failing child aborts the remaining siblings, skips the hook,
propagates that child's error and leaves the bus's `realized` flag unchanged
while the already-unrealized prefix stays unrealized. -/
theorem C8_unrealize_children_first_failure :
    (∀ (ε : Type) (bc : BusClassM ε) (bus : BusM ε) (hr : Except ε Unit),
        bus.realized = true →
        (∀ x ∈ bus.children, x.unrealizeOutcome = .ok ()) →
        bc.unrealize = some hr →
        (bus_set_realized bc bus false).2.2
          = (List.range' 0 bus.children.length).map BEvent.childUnrealize
              ++ [BEvent.unrealizeHook])
    ∧ (∀ (ε : Type) (bc : BusClassM ε) (bus : BusM ε) (pre post : List (DeviceM ε))
          (d : DeviceM ε) (e : ε),
        bus.realized = true →
        bus.children = pre ++ d :: post →
        (∀ x ∈ pre, x.unrealizeOutcome = .ok ()) →
        d.unrealizeOutcome = .error e →
        bus_set_realized bc bus false
          = ({ realized := true,
               children := pre.map (fun x => { x with realized := false }) ++ d :: post },
             some e,
             (List.range' 0 pre.length).map BEvent.childUnrealize
               ++ [BEvent.childUnrealize pre.length])) := by
  constructor
  · intro ε bc bus hr h1 h2 h3
    simp only [bus_set_realized, h1]
    rw [unrealizeChildren_all_ok bus.children 0 h2]
    simp only [h3]
    cases hr <;> simp
  · intro ε bc bus pre post d e h1 hch h2 h3
    cases bus with
    | mk r children =>
      simp only at h1 hch
      subst h1 hch
      simp only [bus_set_realized]
      rw [unrealizeChildren_first_error pre d post 0 e h2 h3]
      simp

/-- Witness for C8: a two-child bus whose first child unrealizes and second
child fails, and a clean bus with an unrealize hook. -/
theorem C8_unrealize_children_first_failure_witness :
    ((bus_set_realized (ε := String) ⟨none, some (.ok ())⟩
        ⟨true, [⟨true, .ok ()⟩]⟩ false).2.2
      = (List.range' 0 1).map BEvent.childUnrealize ++ [BEvent.unrealizeHook])
    ∧ bus_set_realized (ε := String) ⟨none, some (.ok ())⟩
        ⟨true, [⟨true, .ok ()⟩, ⟨true, .error "stuck"⟩, ⟨true, .ok ()⟩]⟩ false
      = (⟨true, [⟨false, .ok ()⟩, ⟨true, .error "stuck"⟩, ⟨true, .ok ()⟩]⟩,
         some "stuck",
         (List.range' 0 1).map BEvent.childUnrealize ++ [BEvent.childUnrealize 1]) :=
  ⟨C8_unrealize_children_first_failure.1 String ⟨none, some (.ok ())⟩
      ⟨true, [⟨true, .ok ()⟩]⟩ (.ok ()) rfl
      (by intro x hx; rw [List.mem_singleton.mp hx]) rfl,
   C8_unrealize_children_first_failure.2 String ⟨none, some (.ok ())⟩
      ⟨true, [⟨true, .ok ()⟩, ⟨true, .error "stuck"⟩, ⟨true, .ok ()⟩]⟩
      [⟨true, .ok ()⟩] [⟨true, .ok ()⟩] ⟨true, .error "stuck"⟩ "stuck"
      rfl rfl (by intro x hx; rw [List.mem_singleton.mp hx]) rfl⟩

/-- Full characterization of the mismatch-tracking loop: starting from
accumulator `acc`, the loop succeeds exactly when every differing option of
`l` agrees in name with `acc` (when set) and with every other differing
option, and it then reports the last differing option's name (or `acc` when
none differs). -/
theorem slot_options_loop_characterization (b : List SlotOption) :
    ∀ (l : List SlotOption) (acc : Option String),
      (∀ x ∈ l, (find_slot_option b x.option).isSome = true) →
      slot_options_loop b l acc
        = if ((∀ x ∈ l, slot_option_differs b x = true → acc = none ∨ acc = some x.option)
              ∧ (∀ x ∈ l, ∀ y ∈ l, slot_option_differs b x = true →
                    slot_option_differs b y = true → x.option = y.option))
          then some ((l.filter (fun x => slot_option_differs b x)).getLast?.elim acc
                      (fun x => some x.option))
          else none := by
  intro l
  induction l with
  | nil =>
    intro acc _
    rw [if_pos ⟨fun x hx => absurd hx (List.not_mem_nil x),
                fun x hx => absurd hx (List.not_mem_nil x)⟩]
    rfl
  | cons ao rest ih =>
    intro acc hf
    obtain ⟨bo, hbo⟩ : ∃ bo, find_slot_option b ao.option = some bo := by
      have h := hf ao (List.mem_cons_self ao rest)
      cases hfind : find_slot_option b ao.option with
      | none => rw [hfind] at h; simp at h
      | some bo => exact ⟨bo, rfl⟩
    have hrest : ∀ x ∈ rest, (find_slot_option b x.option).isSome = true :=
      fun x hx => hf x (List.mem_cons_of_mem _ hx)
    simp only [slot_options_loop, hbo]
    by_cases hdiff : qobject_compare bo.values ao.values = 0
    · rw [if_pos hdiff, ih acc hrest]
      have hnd : slot_option_differs b ao = false := by
        simp [slot_option_differs, hbo, hdiff]
      refine if_congr ?_ ?_ rfl
      · constructor
        · rintro ⟨h1, h2⟩
          constructor
          · intro x hx hdx
            rcases List.mem_cons.mp hx with rfl | hx'
            · rw [hnd] at hdx; cases hdx
            · exact h1 x hx' hdx
          · intro x hx y hy hdx hdy
            rcases List.mem_cons.mp hx with rfl | hx'
            · rw [hnd] at hdx; cases hdx
            · rcases List.mem_cons.mp hy with rfl | hy'
              · rw [hnd] at hdy; cases hdy
              · exact h2 x hx' y hy' hdx hdy
        · rintro ⟨h1, h2⟩
          exact ⟨fun x hx hdx => h1 x (List.mem_cons_of_mem _ hx) hdx,
                 fun x hx y hy hdx hdy =>
                   h2 x (List.mem_cons_of_mem _ hx) y (List.mem_cons_of_mem _ hy) hdx hdy⟩
      · exact congrArg some (by rw [List.filter_cons_of_neg (by simp [hnd])])
    · have hd : slot_option_differs b ao = true := by
        simp [slot_option_differs, hbo, hdiff]
      rw [if_neg hdiff]
      have hvalue :
          ((rest.filter (fun x => slot_option_differs b x)).getLast?.elim
              (some ao.option) (fun x => some x.option) : Option String)
            = ((ao :: rest).filter (fun x => slot_option_differs b x)).getLast?.elim acc
                (fun x => some x.option) := by
        rw [List.filter_cons_of_pos (by simp [hd])]
        cases hfr : rest.filter (fun x => slot_option_differs b x) with
        | nil => rfl
        | cons z zs => rw [List.getLast?_cons_cons]; rfl
      have hcond : ∀ (_ : acc = none ∨ acc = some ao.option),
          (((∀ x ∈ rest, slot_option_differs b x = true →
                (some ao.option : Option String) = none
                  ∨ (some ao.option : Option String) = some x.option)
            ∧ (∀ x ∈ rest, ∀ y ∈ rest, slot_option_differs b x = true →
                  slot_option_differs b y = true → x.option = y.option))
          ↔ ((∀ x ∈ ao :: rest, slot_option_differs b x = true →
                acc = none ∨ acc = some x.option)
            ∧ (∀ x ∈ ao :: rest, ∀ y ∈ ao :: rest, slot_option_differs b x = true →
                  slot_option_differs b y = true → x.option = y.option))) := by
        intro hacc
        constructor
        · rintro ⟨h1, h2⟩
          have hname : ∀ x ∈ rest, slot_option_differs b x = true → ao.option = x.option := by
            intro x hx hdx
            rcases h1 x hx hdx with h | h
            · cases h
            · exact Option.some.inj h
          constructor
          · intro x hx hdx
            rcases List.mem_cons.mp hx with rfl | hx'
            · exact hacc
            · rcases hacc with rfl | rfl
              · left; rfl
              · right; rw [hname x hx' hdx]
          · intro x hx y hy hdx hdy
            rcases List.mem_cons.mp hx with rfl | hx'
            · rcases List.mem_cons.mp hy with rfl | hy'
              · rfl
              · exact hname y hy' hdy
            · rcases List.mem_cons.mp hy with rfl | hy'
              · exact (hname x hx' hdx).symm
              · exact h2 x hx' y hy' hdx hdy
        · rintro ⟨h1, h2⟩
          constructor
          · intro x hx hdx
            right
            rw [h2 ao (List.mem_cons_self ao rest) x (List.mem_cons_of_mem _ hx) hd hdx]
          · intro x hx y hy hdx hdy
            exact h2 x (List.mem_cons_of_mem _ hx) y (List.mem_cons_of_mem _ hy) hdx hdy
      cases acc with
      | none =>
        rw [ih (some ao.option) hrest]
        exact if_congr (hcond (Or.inl rfl)) (congrArg some hvalue) rfl
      | some m =>
        change (if m ≠ ao.option then none
                else slot_options_loop b rest (some ao.option)) = _
        by_cases hm : m = ao.option
        · rw [if_neg (by simpa using hm)]
          rw [ih (some ao.option) hrest]
          subst hm
          exact if_congr (hcond (Or.inr rfl)) (congrArg some hvalue) rfl
        · rw [if_pos hm]
          have hneg : ¬((∀ x ∈ ao :: rest, slot_option_differs b x = true →
                (some m : Option String) = none ∨ (some m : Option String) = some x.option)
              ∧ (∀ x ∈ ao :: rest, ∀ y ∈ ao :: rest, slot_option_differs b x = true →
                    slot_option_differs b y = true → x.option = y.option)) := by
            rintro ⟨h1, _⟩
            rcases h1 ao (List.mem_cons_self ao rest) hd with h | h
            · cases h
            · exact hm (Option.some.inj h)
          rw [if_neg hneg]

/-- C3 (amended): for option lists whose names cover each other,
`slot_options_can_be_combined` returns true exactly when at most one option
name has a differing value set — value sets compared raw by `qobject_compare`
(structural equality, without normalization to list form) — reporting that
single name (or none when every value matches), and it returns false as soon
as two distinct option names differ. -/
theorem C3_options_can_be_combined_iff (a b : List SlotOption)
    (hba : ∀ o ∈ b, (find_slot_option a o.option).isSome = true)
    (hab : ∀ o ∈ a, (find_slot_option b o.option).isSome = true) :
    ((∃ k, slot_options_can_be_combined a b = some k)
      ↔ ∀ x ∈ a, ∀ y ∈ a, slot_option_differs b x = true →
          slot_option_differs b y = true → x.option = y.option)
    ∧ (slot_options_can_be_combined a b = some none
        ↔ ∀ x ∈ a, slot_option_differs b x = false)
    ∧ (∀ n, slot_options_can_be_combined a b = some (some n) →
        ∃ x ∈ a, x.option = n ∧ slot_option_differs b x = true) := by
  have hall : b.all (fun ol => (find_slot_option a ol.option).isSome) = true := by
    rw [List.all_eq_true]; exact hba
  unfold slot_options_can_be_combined
  rw [if_pos hall, slot_options_loop_characterization b a none hab]
  by_cases hc : (∀ x ∈ a, ∀ y ∈ a, slot_option_differs b x = true →
      slot_option_differs b y = true → x.option = y.option)
  · rw [if_pos ⟨fun x _ _ => Or.inl rfl, hc⟩]
    refine ⟨⟨fun _ => hc, fun _ => ⟨_, rfl⟩⟩, ?_, ?_⟩
    · constructor
      · intro h
        have hv := Option.some.inj h
        intro x hx
        cases hgl : (a.filter (fun x => slot_option_differs b x)).getLast? with
        | none =>
          have hnil := List.getLast?_eq_none_iff.mp hgl
          have := List.filter_eq_nil_iff.mp hnil x hx
          simpa using this
        | some z => rw [hgl] at hv; cases hv
      · intro h
        have hnil : a.filter (fun x => slot_option_differs b x) = [] :=
          List.filter_eq_nil_iff.mpr (fun x hx => by rw [h x hx]; simp)
        rw [hnil]
        rfl
    · intro n h
      have hv := Option.some.inj h
      cases hgl : (a.filter (fun x => slot_option_differs b x)).getLast? with
      | none => rw [hgl] at hv; cases hv
      | some z =>
        rw [hgl] at hv
        have hz := List.mem_of_getLast?_eq_some hgl
        have hz' := List.mem_filter.mp hz
        exact ⟨z, hz'.1, Option.some.inj hv, by simpa using hz'.2⟩
  · rw [if_neg (fun hcc => hc hcc.2)]
    refine ⟨?_, ?_, ?_⟩
    · constructor
      · rintro ⟨k, hk⟩; cases hk
      · intro h; exact absurd h hc
    · constructor
      · intro h; cases h
      · intro h
        exfalso
        apply hc
        intro x hx y hy hdx
        rw [h x hx] at hdx
        cases hdx
    · intro n h; cases h

/-- Witness for C3 (amended) at concrete two-option lists where exactly the
option `"m"` differs. -/
theorem C3_options_can_be_combined_iff_witness :
    ((∃ k, slot_options_can_be_combined
        [⟨"k", .qstring "x"⟩, ⟨"m", .qstring "y"⟩]
        [⟨"k", .qstring "x"⟩, ⟨"m", .qstring "z"⟩] = some k)
      ↔ ∀ x ∈ [SlotOption.mk "k" (.qstring "x"), SlotOption.mk "m" (.qstring "y")],
          ∀ y ∈ [SlotOption.mk "k" (.qstring "x"), SlotOption.mk "m" (.qstring "y")],
          slot_option_differs [⟨"k", .qstring "x"⟩, ⟨"m", .qstring "z"⟩] x = true →
          slot_option_differs [⟨"k", .qstring "x"⟩, ⟨"m", .qstring "z"⟩] y = true →
          x.option = y.option)
    ∧ (∀ n, slot_options_can_be_combined
        [⟨"k", .qstring "x"⟩, ⟨"m", .qstring "y"⟩]
        [⟨"k", .qstring "x"⟩, ⟨"m", .qstring "z"⟩] = some (some n) →
        ∃ x ∈ [SlotOption.mk "k" (.qstring "x"), SlotOption.mk "m" (.qstring "y")],
          x.option = n ∧ slot_option_differs
            [⟨"k", .qstring "x"⟩, ⟨"m", .qstring "z"⟩] x = true) :=
  ⟨(C3_options_can_be_combined_iff
      [⟨"k", .qstring "x"⟩, ⟨"m", .qstring "y"⟩]
      [⟨"k", .qstring "x"⟩, ⟨"m", .qstring "z"⟩]
      (by decide) (by decide)).1,
   (C3_options_can_be_combined_iff
      [⟨"k", .qstring "x"⟩, ⟨"m", .qstring "y"⟩]
      [⟨"k", .qstring "x"⟩, ⟨"m", .qstring "z"⟩]
      (by decide) (by decide)).2.2⟩

/-- C3 fails as stated: with equality taken as structural equality after
normalization to list form, these two lists have no mismatching option at
all (each value differs only in representation, `"x"` versus `["x"]`), and
their names cover each other, yet the code reports them non-combinable,
because `qobject_compare` is applied to the raw values and counts both
options as mismatching. -/
theorem C3_options_can_be_combined_counterexample :
    slot_options_can_be_combined
        [⟨"k1", .qstring "x"⟩, ⟨"k2", .qstring "y"⟩]
        [⟨"k1", .qlist [.qstring "x"]⟩, ⟨"k2", .qlist [.qstring "y"]⟩] = none
    ∧ valuelist_normalize (.qstring "x") = valuelist_normalize (.qlist [.qstring "x"])
    ∧ valuelist_normalize (.qstring "y") = valuelist_normalize (.qlist [.qstring "y"])
    ∧ (∀ o ∈ [SlotOption.mk "k1" (.qlist [.qstring "x"]),
              SlotOption.mk "k2" (.qlist [.qstring "y"])],
        (find_slot_option [⟨"k1", .qstring "x"⟩, ⟨"k2", .qstring "y"⟩] o.option).isSome
          = true)
    ∧ (∀ o ∈ [SlotOption.mk "k1" (.qstring "x"), SlotOption.mk "k2" (.qstring "y")],
        (find_slot_option [⟨"k1", .qlist [.qstring "x"]⟩,
            ⟨"k2", .qlist [.qstring "y"]⟩] o.option).isSome = true) := by
  refine ⟨rfl, rfl, rfl, ?_, ?_⟩ <;> decide

/-- `Nat.toDigitsCore` prepends its digits to the accumulator. -/
theorem toDigitsCore_append (b : Nat) :
    ∀ (fuel n : Nat) (acc : List Char),
      Nat.toDigitsCore b fuel n acc = Nat.toDigitsCore b fuel n [] ++ acc
  | 0, _, _ => by simp [Nat.toDigitsCore]
  | fuel + 1, n, acc => by
      simp only [Nat.toDigitsCore]
      by_cases h : n / b = 0
      · simp [h]
      · simp only [h, if_neg]
        rw [toDigitsCore_append b fuel (n / b) [Nat.digitChar (n % b)],
            toDigitsCore_append b fuel (n / b) (Nat.digitChar (n % b) :: acc)]
        simp

/-- `decRepr` on a one-digit number. -/
theorem decRepr_lt (n : Nat) (h : n < 10) : decRepr n = [Nat.digitChar n] := by
  rw [decRepr, if_pos h]

/-- `decRepr` on a number of ten or more. -/
theorem decRepr_ge (n : Nat) (h : ¬n < 10) :
    decRepr n = decRepr (n / 10) ++ [Nat.digitChar (n % 10)] := by
  rw [decRepr, if_neg h]

/-- With enough fuel, `Nat.toDigitsCore` base 10 computes `decRepr`. -/
theorem toDigitsCore_eq_decRepr :
    ∀ (fuel n : Nat), n < fuel → Nat.toDigitsCore 10 fuel n [] = decRepr n
  | 0, n, h => absurd h (Nat.not_lt_zero n)
  | fuel + 1, n, h => by
      simp only [Nat.toDigitsCore]
      by_cases h10 : n / 10 = 0
      · have hn : n < 10 := by omega
        rw [if_pos h10, decRepr_lt n hn, Nat.mod_eq_of_lt hn]
      · have hn : 10 ≤ n := by
          by_contra hc
          exact h10 (Nat.div_eq_of_lt (by omega))
        have hlt : n / 10 < fuel := by
          have h1 : n / 10 < n := Nat.div_lt_self (by omega) (by omega)
          omega
        rw [if_neg h10]
        rw [toDigitsCore_append 10 fuel (n / 10) [Nat.digitChar (n % 10)]]
        rw [toDigitsCore_eq_decRepr fuel (n / 10) hlt]
        rw [decRepr_ge n (by omega)]

/-- The characters of `Nat.repr`. -/
theorem Nat_repr_data (n : Nat) : (Nat.repr n).data = decRepr n := by
  show (List.asString (Nat.toDigits 10 n)).data = decRepr n
  rw [Nat.toDigits, toDigitsCore_eq_decRepr (n + 1) n (Nat.lt_succ_self n)]
  rfl

/-- `decRepr` is never empty. -/
theorem decRepr_ne_nil (n : Nat) : decRepr n ≠ [] := by
  by_cases h : n < 10
  · rw [decRepr_lt n h]; simp
  · rw [decRepr_ge n h]; simp

/-- Every character of `decRepr` is a decimal digit character. -/
theorem decRepr_digits (n : Nat) : ∀ c ∈ decRepr n, ∃ d, d < 10 ∧ c = Nat.digitChar d := by
  induction n using Nat.strong_induction_on with
  | _ n ih =>
    by_cases hn : n < 10
    · rw [decRepr_lt n hn]
      intro c hc
      rw [List.mem_singleton.mp hc]
      exact ⟨n, hn, rfl⟩
    · rw [decRepr_ge n hn]
      intro c hc
      rcases List.mem_append.mp hc with hc1 | hc2
      · exact ih (n / 10) (Nat.div_lt_self (by omega) (by omega)) c hc1
      · rw [List.mem_singleton.mp hc2]
        exact ⟨n % 10, Nat.mod_lt n (by omega), rfl⟩

/-- Digit characters of distinct digits are distinct. -/
theorem digitChar_inj_lt10 : ∀ x ∈ List.range 10, ∀ y ∈ List.range 10,
    Nat.digitChar x = Nat.digitChar y → x = y := by decide

/-- A decimal digit character is not `'.'` and is left unchanged by
`qemu_tolower`. -/
theorem digitChar_not_dot_fixed : ∀ d ∈ List.range 10,
    Nat.digitChar d ≠ '.' ∧ qemu_tolower (Nat.digitChar d) = Nat.digitChar d := by
  decide

/-- `'.'` does not occur among the digits of `decRepr`. -/
theorem dot_not_mem_decRepr (n : Nat) : '.' ∉ decRepr n := by
  intro hmem
  obtain ⟨d, hd, hc⟩ := decRepr_digits n '.' hmem
  exact (digitChar_not_dot_fixed d (List.mem_range.mpr hd)).1 hc.symm

/-- `decRepr` is injective. -/
theorem decRepr_injective : ∀ m n : Nat, decRepr m = decRepr n → m = n := by
  intro m
  induction m using Nat.strong_induction_on with
  | _ m ih =>
    intro n h
    by_cases hm : m < 10 <;> by_cases hn : n < 10
    · rw [decRepr_lt m hm, decRepr_lt n hn] at h
      exact digitChar_inj_lt10 m (List.mem_range.mpr hm) n (List.mem_range.mpr hn)
        (List.singleton_inj.mp h)
    · exfalso
      rw [decRepr_lt m hm, decRepr_ge n hn] at h
      have h1 : (1 : Nat) = (decRepr (n / 10)).length + 1 := by
        have := congrArg List.length h
        simpa using this
      have h2 := decRepr_ne_nil (n / 10)
      cases hq : decRepr (n / 10) with
      | nil => exact h2 hq
      | cons c cs => rw [hq] at h1; simp at h1
    · exfalso
      rw [decRepr_ge m hm, decRepr_lt n hn] at h
      have h1 := congrArg List.length h
      simp at h1
      have h2 := decRepr_ne_nil (m / 10)
      cases hq : decRepr (m / 10) with
      | nil => exact h2 hq
      | cons c cs => rw [hq] at h1; simp at h1
    · rw [decRepr_ge m hm, decRepr_ge n hn] at h
      obtain ⟨hpre, hsuf⟩ := List.append_inj' h (by simp)
      have hd : m % 10 = n % 10 :=
        digitChar_inj_lt10 _ (List.mem_range.mpr (Nat.mod_lt m (by omega))) _
          (List.mem_range.mpr (Nat.mod_lt n (by omega)))
          (List.singleton_inj.mp hsuf)
      have hq : m / 10 = n / 10 :=
        ih (m / 10) (Nat.div_lt_self (by omega) (by omega)) (n / 10) hpre
      omega

/-- `Nat.repr` is injective. -/
theorem nat_repr_injective {m n : Nat} (h : Nat.repr m = Nat.repr n) : m = n :=
  decRepr_injective m n (by rw [← Nat_repr_data, ← Nat_repr_data, h])

/-- Splitting at the last occurrence of a separator is unambiguous. -/
theorem append_sep_inj {c : Char} :
    ∀ (l1 r1 l2 r2 : List Char), c ∉ r1 → c ∉ r2 →
      l1 ++ c :: r1 = l2 ++ c :: r2 → l1 = l2 ∧ r1 = r2
  | [], r1, [], r2, _, _, h => by
      simp only [List.nil_append, List.cons.injEq] at h
      exact ⟨rfl, h.2⟩
  | [], r1, y :: ys, r2, h1, _, h => by
      exfalso
      simp only [List.nil_append, List.cons_append, List.cons.injEq] at h
      apply h1
      rw [h.2]
      exact List.mem_append.mpr (Or.inr (List.mem_cons_self c r2))
  | x :: xs, r1, [], r2, _, h2, h => by
      exfalso
      simp only [List.nil_append, List.cons_append, List.cons.injEq] at h
      apply h2
      rw [← h.2]
      exact List.mem_append.mpr (Or.inr (List.mem_cons_self c r1))
  | x :: xs, r1, y :: ys, r2, h1, h2, h => by
      simp only [List.cons_append, List.cons.injEq] at h
      obtain ⟨hpre, hsuf⟩ := append_sep_inj xs r1 ys r2 h1 h2 h.2
      exact ⟨by rw [h.1, hpre], hsuf⟩

/-- A name of the shape `prefix ++ "." ++ digits` determines the prefix and
the number. -/
theorem sep_name_inj {s1 s2 : String} {k1 k2 : Nat}
    (h : s1 ++ "." ++ Nat.repr k1 = s2 ++ "." ++ Nat.repr k2) :
    s1 = s2 ∧ k1 = k2 := by
  have hdata := congrArg String.data h
  rw [String.data_append, String.data_append, String.data_append,
      String.data_append] at hdata
  have hdot : (".").data = ['.'] := rfl
  rw [hdot, Nat_repr_data, Nat_repr_data] at hdata
  simp only [List.append_assoc, List.singleton_append] at hdata
  obtain ⟨hpre, hsuf⟩ := append_sep_inj s1.data (decRepr k1) s2.data (decRepr k2)
    (dot_not_mem_decRepr k1) (dot_not_mem_decRepr k2) hdata
  constructor
  · cases s1; cases s2; exact congrArg String.mk hpre
  · exact decRepr_injective k1 k2 hsuf

/-- Strings with equal character data are equal. -/
theorem string_data_inj {a b : String} (h : a.data = b.data) : a = b := by
  cases a; cases b; exact congrArg String.mk h

theorem lowerString_data (s : String) : (lowerString s).data = s.data.map qemu_tolower := rfl

/-- Lowercasing distributes over string append. -/
theorem lowerString_append (s t : String) :
    lowerString (s ++ t) = lowerString s ++ lowerString t := by
  apply string_data_inj
  rw [lowerString_data, String.data_append, String.data_append,
      lowerString_data, lowerString_data, List.map_append]

/-- Lowercasing leaves a decimal representation unchanged. -/
theorem lowerString_repr (k : Nat) : lowerString (Nat.repr k) = Nat.repr k := by
  apply string_data_inj
  rw [lowerString_data, Nat_repr_data]
  have : (decRepr k).map qemu_tolower = (decRepr k).map id := by
    apply List.map_congr_left
    intro c hc
    obtain ⟨d, hd, rfl⟩ := decRepr_digits k c hc
    exact (digitChar_not_dot_fixed d (List.mem_range.mpr hd)).2
  rw [this, List.map_id]

/-- Lowercasing an automatic bus name lowers only the type-name part. -/
theorem lowerString_busname (t : String) (k : Nat) :
    lowerString (t ++ "." ++ Nat.repr k) = lowerString t ++ "." ++ Nat.repr k := by
  rw [lowerString_append, lowerString_append, lowerString_repr]
  have hdot : lowerString "." = "." := rfl
  rw [hdot]

/-- Two lowered automatic names agree only for equal lowered type names and
equal counters. -/
theorem typeform_name_inj {t1 t2 : String} {k1 k2 : Nat}
    (h : lowerString (t1 ++ "." ++ Nat.repr k1) = lowerString (t2 ++ "." ++ Nat.repr k2)) :
    lowerString t1 = lowerString t2 ∧ k1 = k2 := by
  rw [lowerString_busname, lowerString_busname] at h
  exact sep_name_inj h

/-- One `qbus_realize` never decreases a per-type counter. -/
theorem qbus_realize_autoIds_le (env : Nat → Option String) (st : NamingState)
    (e : BusCreation) (t : String) :
    st.autoIds t ≤ ((qbus_realize env st e).1).autoIds t := by
  rcases e with ⟨tn, par, nm⟩
  cases nm with
  | some n => cases par <;> simp [qbus_realize]
  | none =>
    cases par with
    | none =>
      simp only [qbus_realize]
      split <;> omega
    | some p =>
      cases hp : env p <;> simp only [qbus_realize, hp]
      · split <;> omega
      · simp

/-- One `qbus_realize` never decreases a per-parent child count. -/
theorem qbus_realize_numChildBus_le (env : Nat → Option String) (st : NamingState)
    (e : BusCreation) (q : Nat) :
    st.numChildBus q ≤ ((qbus_realize env st e).1).numChildBus q := by
  rcases e with ⟨tn, par, nm⟩
  cases nm with
  | some n =>
    cases par with
    | none => simp [qbus_realize]
    | some p => simp only [qbus_realize]; split <;> omega
  | none =>
    cases par with
    | none => simp [qbus_realize]
    | some p =>
      cases hp : env p <;> simp only [qbus_realize, hp] <;> split <;> omega

/-- Every record of an auto-named run is either a `"{parent_id}.{n}"` name
with `n` at least the starting child count of its parent, or a lowered
`"{typename}.{n}"` name of a created type with `n` at least the starting
per-type counter (the latter exactly when the bus is a root or its parent
has no id). -/
theorem qbus_run_mem_form (env : Nat → Option String) :
    ∀ (es : List BusCreation) (st : NamingState) (r : BusRec),
      (∀ e ∈ es, e.name = none) →
      r ∈ qbus_run env st es →
      (∃ p pid k, r.parent = some p ∧ env p = some pid ∧ st.numChildBus p ≤ k ∧
          r.name = pid ++ "." ++ Nat.repr k)
      ∨ (∃ t k, (∃ e ∈ es, e.typename = t) ∧ st.autoIds t ≤ k ∧
          r.name = lowerString (t ++ "." ++ Nat.repr k) ∧
          (r.parent = none ∨ ∃ p, r.parent = some p ∧ env p = none)) := by
  intro es
  induction es with
  | nil => intro st r _ hr; cases hr
  | cons e es ih =>
    intro st r hname hr
    have hen : e.name = none := hname e (List.mem_cons_self e es)
    have hname' : ∀ x ∈ es, x.name = none :=
      fun x hx => hname x (List.mem_cons_of_mem _ hx)
    simp only [qbus_run] at hr
    rcases List.mem_cons.mp hr with rfl | htail
    · -- the head record
      rcases e with ⟨tn, par, nm⟩
      simp only at hen
      subst hen
      cases par with
      | none =>
        exact Or.inr ⟨tn, st.autoIds tn,
          ⟨⟨tn, none, none⟩, List.mem_cons_self _ _, rfl⟩, le_refl _, rfl, Or.inl rfl⟩
      | some p =>
        cases hp : env p with
        | some pid =>
          refine Or.inl ⟨p, pid, st.numChildBus p, ?_, hp, le_refl _, ?_⟩ <;>
            simp [qbus_realize, hp]
        | none =>
          refine Or.inr ⟨tn, st.autoIds tn,
            ⟨⟨tn, some p, none⟩, List.mem_cons_self _ _, rfl⟩,
            le_refl _, ?_, Or.inr ⟨p, ?_, hp⟩⟩ <;> simp [qbus_realize, hp]
    · -- a record of the tail, produced from the bumped state
      have hform := ih ((qbus_realize env st e).1) r hname' htail
      rcases hform with ⟨p, pid, k, h1, h2, h3, h4⟩ | ⟨t, k, ⟨e2, he2, ht2⟩, h3, h4, h5⟩
      · exact Or.inl ⟨p, pid, k, h1, h2,
          le_trans (qbus_realize_numChildBus_le env st e p) h3, h4⟩
      · exact Or.inr ⟨t, k, ⟨e2, List.mem_cons_of_mem _ he2, ht2⟩,
          le_trans (qbus_realize_autoIds_le env st e t) h3, h4, h5⟩

/-- C6 (amended): over any sequence of bus creations with no explicit name,
and provided lowercasing is injective on the concrete type names used (two
distinct created types never lowercase to the same string), the automatic
names are pairwise distinct whenever the two buses hang under the same
parent, and pairwise distinct among root buses. -/
theorem C6_bus_autonaming_distinct (env : Nat → Option String) :
    ∀ (es : List BusCreation) (st0 : NamingState),
      (∀ e ∈ es, e.name = none) →
      (∀ e1 ∈ es, ∀ e2 ∈ es, lowerString e1.typename = lowerString e2.typename →
          e1.typename = e2.typename) →
      List.Pairwise (fun r1 r2 => r1.parent = r2.parent → r1.name ≠ r2.name)
        (qbus_run env st0 es) := by
  intro es
  induction es with
  | nil => intro st0 _ _; exact List.Pairwise.nil
  | cons e es ih =>
    intro st0 hname hinj
    have hen : e.name = none := hname e (List.mem_cons_self e es)
    have hname' : ∀ x ∈ es, x.name = none :=
      fun x hx => hname x (List.mem_cons_of_mem _ hx)
    have hinj' : ∀ e1 ∈ es, ∀ e2 ∈ es,
        lowerString e1.typename = lowerString e2.typename →
        e1.typename = e2.typename :=
      fun e1 h1 e2 h2 =>
        hinj e1 (List.mem_cons_of_mem _ h1) e2 (List.mem_cons_of_mem _ h2)
    simp only [qbus_run]
    refine List.Pairwise.cons ?_ (ih _ hname' hinj')
    intro r2 hr2 hpar heq
    have hform := qbus_run_mem_form env es ((qbus_realize env st0 e).1) r2 hname' hr2
    rcases e with ⟨tn, par, nm⟩
    simp only at hen
    subst hen
    cases par with
    | none =>
      have hst' : ((qbus_realize env st0 ⟨tn, none, none⟩).1).autoIds tn
          = st0.autoIds tn + 1 := by simp [qbus_realize]
      rcases hform with ⟨p, pid, k, h1, h2, h3, h4⟩ | ⟨t, k, ⟨e2, he2, ht2⟩, h3, h4, h5⟩
      · rw [h1] at hpar
        simp [qbus_realize] at hpar
      · have hn1 : (qbus_realize env st0 ⟨tn, none, none⟩).2.name
            = lowerString (tn ++ "." ++ Nat.repr (st0.autoIds tn)) := by
          simp [qbus_realize]
        rw [hn1, h4] at heq
        obtain ⟨hlow, hk⟩ := typeform_name_inj heq
        subst ht2
        have htt : tn = e2.typename :=
          hinj ⟨tn, none, none⟩ (List.mem_cons_self _ _) e2
            (List.mem_cons_of_mem _ he2) hlow
        rw [← htt, hst'] at h3
        omega
    | some p =>
      cases hp : env p with
      | some pid =>
        have hst' : ((qbus_realize env st0 ⟨tn, some p, none⟩).1).numChildBus p
            = st0.numChildBus p + 1 := by simp [qbus_realize, hp]
        have hn1 : (qbus_realize env st0 ⟨tn, some p, none⟩).2.name
            = pid ++ "." ++ Nat.repr (st0.numChildBus p) := by simp [qbus_realize, hp]
        have hp1 : (qbus_realize env st0 ⟨tn, some p, none⟩).2.parent = some p := by
          simp [qbus_realize, hp]
        rcases hform with ⟨p2, pid2, k, h1, h2, h3, h4⟩ | ⟨t, k, ⟨e2, he2, ht2⟩, h3, h4, h5⟩
        · rw [hp1, h1] at hpar
          obtain rfl : p = p2 := Option.some.inj hpar
          rw [hp] at h2
          obtain rfl : pid = pid2 := Option.some.inj h2
          rw [hn1, h4] at heq
          obtain ⟨-, hk⟩ := sep_name_inj heq
          rw [hst'] at h3
          omega
        · rw [hp1] at hpar
          rcases h5 with h5 | ⟨p2, h5, henv⟩
          · rw [h5] at hpar; cases hpar
          · rw [h5] at hpar
            obtain rfl : p = p2 := Option.some.inj hpar
            rw [hp] at henv
            cases henv
      | none =>
        have hst' : ((qbus_realize env st0 ⟨tn, some p, none⟩).1).autoIds tn
            = st0.autoIds tn + 1 := by simp [qbus_realize, hp]
        have hn1 : (qbus_realize env st0 ⟨tn, some p, none⟩).2.name
            = lowerString (tn ++ "." ++ Nat.repr (st0.autoIds tn)) := by
          simp [qbus_realize, hp]
        have hp1 : (qbus_realize env st0 ⟨tn, some p, none⟩).2.parent = some p := by
          simp [qbus_realize, hp]
        rcases hform with ⟨p2, pid2, k, h1, h2, h3, h4⟩ | ⟨t, k, ⟨e2, he2, ht2⟩, h3, h4, h5⟩
        · rw [hp1, h1] at hpar
          obtain rfl : p = p2 := Option.some.inj hpar
          rw [hp] at h2
          cases h2
        · rw [hn1, h4] at heq
          obtain ⟨hlow, hk⟩ := typeform_name_inj heq
          subst ht2
          have htt : tn = e2.typename :=
            hinj ⟨tn, some p, none⟩ (List.mem_cons_self _ _) e2
              (List.mem_cons_of_mem _ he2) hlow
          rw [← htt, hst'] at h3
          omega

/-- C6 fails as stated: two root buses of the distinct concrete types `"A"`
and `"a"` (whose lowercased names coincide, each type holding its own
counter starting at 0) both receive the automatic name `"a.0"`. -/
theorem C6_bus_autonaming_counterexample :
    qbus_run (fun _ => none) ⟨fun _ => 0, fun _ => 0⟩
        [⟨"A", none, none⟩, ⟨"a", none, none⟩]
      = [⟨"a.0", none⟩, ⟨"a.0", none⟩]
    ∧ (∀ e ∈ [BusCreation.mk "A" none none, BusCreation.mk "a" none none],
        e.name = none)
    ∧ "A" ≠ "a" := by
  refine ⟨by decide, by decide, by decide⟩

/-- Witness for C6 (amended) at a concrete three-creation run: a root bus of
type `"i440FX"`, a child of the id-bearing parent device `0`, and a second
root of the same type. -/
theorem C6_bus_autonaming_distinct_witness :
    List.Pairwise (fun r1 r2 : BusRec => r1.parent = r2.parent → r1.name ≠ r2.name)
      (qbus_run (fun p => if p = 0 then some "dev0" else none)
        ⟨fun _ => 0, fun _ => 0⟩
        [⟨"i440FX", none, none⟩, ⟨"PCI", some 0, none⟩, ⟨"i440FX", none, none⟩]) :=
  C6_bus_autonaming_distinct (fun p => if p = 0 then some "dev0" else none)
    [⟨"i440FX", none, none⟩, ⟨"PCI", some 0, none⟩, ⟨"i440FX", none, none⟩]
    ⟨fun _ => 0, fun _ => 0⟩
    (by decide)
    (by decide)
